import Mathlib

/-!
# Verification of the `rockrs` concurrent memoizing query engine

Shallow embedding of `src/lib.rs`.  The engine caches query results in
per-query-type concurrent maps (`DashMap`), coordinates concurrent fetches
of the same key through `InProgress`/`Complete` entries, parks waiting
threads, and detects cyclic queries by walking a wait-for graph
(`Context::deadlock_check`).

Modelling conventions:
* `std::thread::ThreadId` is modelled as `Nat`.
* A `DashMap<K, V>` is modelled as an association list `List (K × V)` with
  unique keys; `insert` replaces any existing binding, `get` is `alookup`,
  `remove` is `aremoveAll [k]`.
* The deadlock-check loop of `Context::deadlock_check` (lib.rs:104-114),
  which may run forever, is modelled by the fuel-indexed `walkF`; a `none`
  result means the loop is still running after `fuel` iterations.
* The single-thread operational behaviour of `fetch`/`try_fetch`/`rule`/
  `steal` (lib.rs:116-188) is a fuel-indexed interpreter over an explicit
  state (`SeqState`), instrumented with a trace of rule/fetch events.
* The cross-thread behaviour around one (query-type, key) pair is a
  small-step transition relation `CStep` over `Sys`, with one transition
  per atomic section of the source (atomicity granularity justified by the
  `DashMap` shard lock held for the whole `match map.entry(..)` arm).
-/

namespace Rockrs

/-! ## Association-list model of `DashMap` -/

section AList

variable {K V : Type} [DecidableEq K]

/-- `DashMap::get`: first binding of the key, if any. -/
def alookup (k : K) : List (K × V) → Option V
  | [] => none
  | (a, b) :: l => if a = k then some b else alookup k l

/-- `DashMap::insert`: bind `k` to `v`, dropping any previous binding. -/
def ainsert (k : K) (v : V) (l : List (K × V)) : List (K × V) :=
  (k, v) :: l.filter (fun e => decide (e.1 ≠ k))

/-- Iterated `DashMap::remove` over a list of keys. -/
def aremoveAll (ks : List K) (l : List (K × V)) : List (K × V) :=
  l.filter (fun e => decide (e.1 ∉ ks))

theorem alookup_filter_of_ne {k : K} {p : K × V → Bool} (l : List (K × V))
    (hp : ∀ v, p (k, v) = true) :
    alookup k (l.filter p) = alookup (V := V) k l := by
  induction l with
  | nil => rfl
  | cons e l ih =>
    obtain ⟨a, b⟩ := e
    by_cases hak : a = k
    · subst hak
      simp [List.filter, hp b, alookup, ih]
    · by_cases hpe : p (a, b) = true
      · simp [List.filter, hpe, alookup, hak, ih]
      · simp only [Bool.not_eq_true] at hpe
        simp [List.filter, hpe, alookup, hak, ih]

theorem alookup_ainsert_self (k : K) (v : V) (l : List (K × V)) :
    alookup k (ainsert k v l) = some v := by
  simp [ainsert, alookup]

theorem alookup_ainsert_of_ne {k k' : K} (v : V) (l : List (K × V)) (h : k' ≠ k) :
    alookup k' (ainsert k v l) = alookup k' l := by
  have hne : k ≠ k' := fun he => h he.symm
  simp only [ainsert, alookup, hne, if_false]
  exact alookup_filter_of_ne l (fun w => by simp [h])

theorem alookup_aremoveAll_mem {k : K} {ks : List K} (l : List (K × V)) (h : k ∈ ks) :
    alookup k (aremoveAll ks l) = none := by
  induction l with
  | nil => rfl
  | cons e l ih =>
    obtain ⟨a, b⟩ := e
    simp only [aremoveAll] at ih ⊢
    rw [List.filter_cons]
    by_cases hmem : a ∈ ks
    · simpa [hmem] using ih
    · have hak : a ≠ k := fun he => hmem (he ▸ h)
      simpa [hmem, alookup, hak] using ih

theorem alookup_aremoveAll_not_mem {k : K} {ks : List K} (l : List (K × V)) (h : k ∉ ks) :
    alookup k (aremoveAll ks l) = alookup k l :=
  alookup_filter_of_ne l (fun v => by simp [h])

theorem aremoveAll_eq_nil {ks : List K} {l : List (K × V)} (h : ∀ e ∈ l, e.1 ∈ ks) :
    aremoveAll ks l = [] := by
  simp only [aremoveAll, List.filter_eq_nil_iff]
  intro e he
  simp [h e he]

end AList

/-! ## The wait-for graph and `Context::deadlock_check` (lib.rs:104-114)

`thread_dependencies : DashMap<ThreadId, ThreadId>` is one edge per waiting
thread.  `deadlock_check` inserts the edge `my_tid → other_tid` and then
follows edges starting from `other_tid`; it panics with a cyclic-query
error when the walk reaches `my_tid`, and returns normally when it reaches
a thread with no outgoing edge.  The loop has no other exit, so it runs
forever if the walk enters a cycle that avoids `my_tid`. -/

/-- Edge map of the wait-for graph. -/
abbrev TDeps := List (Nat × Nat)

/-- Result of one terminating run of the deadlock-check loop. -/
inductive WRes : Type where
  | ok : WRes
  | cyclic : WRes
  deriving DecidableEq

/-- The `while let` loop of `Context::deadlock_check`, with fuel.
`none` means the loop is still running after `fuel` iterations. -/
def walkF : Nat → TDeps → Nat → Nat → Option WRes
  | 0, _, _, _ => none
  | fuel + 1, td, me, cur =>
    match alookup cur td with
    | none => some WRes.ok
    | some nxt => if nxt = me then some WRes.cyclic else walkF fuel td me nxt

/-- `Context::deadlock_check`: insert the edge `me → other`, then walk from
`other`.  Returns the updated edge map together with the loop's outcome
(`none` when the loop is still running after `fuel` iterations). -/
def deadlockCheckF (fuel : Nat) (td : TDeps) (me other : Nat) :
    Option (WRes × TDeps) :=
  (walkF fuel (ainsert me other td) me other).map (fun r => (r, ainsert me other td))

/-- The deadlock-check loop terminates (for some fuel, on this edge map). -/
def walkTerminates (td : TDeps) (me st : Nat) : Prop :=
  ∃ fuel, (walkF fuel td me st).isSome

/-- `n`-fold successor along the edge map, starting at `st`. -/
def iterS (td : TDeps) (st : Nat) : Nat → Option Nat
  | 0 => some st
  | n + 1 => (iterS td st n).bind (fun c => alookup c td)

theorem iterS_succ_front (td : TDeps) (st : Nat) (n : Nat) :
    iterS td st (n + 1) =
      match alookup st td with
      | none => none
      | some c => iterS td c n := by
  induction n with
  | zero =>
    cases h : alookup st td <;> simp [iterS, h]
  | succ n ih =>
    show (iterS td st (n + 1)).bind (fun c => alookup c td) = _
    rw [ih]
    cases h : alookup st td with
    | none => simp
    | some c => simp [iterS]

theorem walkF_mono {fuel : Nat} {td : TDeps} {me cur : Nat} {r : WRes}
    (h : walkF fuel td me cur = some r) : walkF (fuel + 1) td me cur = some r := by
  induction fuel generalizing cur with
  | zero => simp [walkF] at h
  | succ fuel ih =>
    rw [walkF] at h
    rw [walkF]
    cases hl : alookup cur td with
    | none => rw [hl] at h; simpa using h
    | some nxt =>
      rw [hl] at h
      by_cases hnm : nxt = me
      · simpa [hnm] using h
      · simp only [hnm, if_false] at h ⊢
        exact ih h

/-- If the successor chain from `cur` reaches `me` in `n ≥ 1` steps, the
deadlock-check walk (with fuel at least `n`) stops with the cyclic outcome. -/
theorem walkF_cyclic_of_reaches {n fuel : Nat} {td : TDeps} {me cur : Nat}
    (hn : 1 ≤ n) (hfuel : n ≤ fuel) (h : iterS td cur n = some me) :
    walkF fuel td me cur = some WRes.cyclic := by
  induction n generalizing cur fuel with
  | zero => exact absurd hn (by simp)
  | succ n ih =>
    obtain ⟨fuel, rfl⟩ : ∃ f, fuel = f + 1 :=
      ⟨fuel - 1, by omega⟩
    rw [iterS_succ_front] at h
    cases hl : alookup cur td with
    | none => rw [hl] at h; simp at h
    | some c =>
      rw [hl] at h
      rw [walkF, hl]
      by_cases hcm : c = me
      · simp [hcm]
      · simp only [hcm, if_false]
        cases n with
        | zero => simp [iterS] at h; exact absurd h hcm
        | succ n => exact ih (by omega) (by omega) h

/-- Converse direction: a cyclic outcome of the walk exhibits a chain from
`cur` to `me`. -/
theorem reaches_of_walkF_cyclic {fuel : Nat} {td : TDeps} {me cur : Nat}
    (h : walkF fuel td me cur = some WRes.cyclic) :
    ∃ n, 1 ≤ n ∧ iterS td cur n = some me := by
  induction fuel generalizing cur with
  | zero => simp [walkF] at h
  | succ fuel ih =>
    rw [walkF] at h
    cases hl : alookup cur td with
    | none => rw [hl] at h; simp at h
    | some nxt =>
      rw [hl] at h
      by_cases hnm : nxt = me
      · exact ⟨1, le_refl 1, by simp [iterS, hl, hnm]⟩
      · simp only [hnm, if_false] at h
        obtain ⟨n, hn1, hn⟩ := ih h
        refine ⟨n + 1, by omega, ?_⟩
        rw [iterS_succ_front, hl]
        exact hn

theorem stop_of_walkF {fuel : Nat} {td : TDeps} {me st : Nat} {r : WRes}
    (h : walkF fuel td me st = some r) :
    ∃ n x, iterS td st n = some x ∧
      (alookup x td = none ∨ alookup x td = some me) := by
  induction fuel generalizing st with
  | zero => simp [walkF] at h
  | succ fuel ih =>
    rw [walkF] at h
    cases hl : alookup st td with
    | none => exact ⟨0, st, by simp [iterS], Or.inl hl⟩
    | some nxt =>
      rw [hl] at h
      by_cases hnm : nxt = me
      · exact ⟨0, st, by simp [iterS], Or.inr (by rw [hl, hnm])⟩
      · simp only [hnm, if_false] at h
        obtain ⟨n, x, hx, hstop⟩ := ih h
        refine ⟨n + 1, x, ?_, hstop⟩
        rw [iterS_succ_front, hl]
        exact hx

theorem walkF_of_stop {n : Nat} {td : TDeps} {me st x : Nat}
    (hx : iterS td st n = some x)
    (hstop : alookup x td = none ∨ alookup x td = some me) :
    walkTerminates td me st := by
  induction n generalizing st with
  | zero =>
    simp [iterS] at hx
    subst hx
    cases hstop with
    | inl h0 => exact ⟨1, by simp [walkF, h0]⟩
    | inr h0 => exact ⟨1, by simp [walkF, h0]⟩
  | succ n ih =>
    rw [iterS_succ_front] at hx
    cases hl : alookup st td with
    | none => rw [hl] at hx; simp at hx
    | some c =>
      rw [hl] at hx
      have hx' : iterS td c n = some x := hx
      by_cases hcm : c = me
      · exact ⟨1, by simp [walkF, hl, hcm]⟩
      · obtain ⟨fuel, hf⟩ := ih hx'
        refine ⟨fuel + 1, ?_⟩
        rw [walkF, hl]
        simpa [hcm] using hf

/-! ## Single-thread operational model of `fetch` / `try_fetch` / `rule` / `steal`

The interpreter below embeds lib.rs:116-188 for one thread `t`, with the
shared structures (`Context`, lib.rs:21-27) as explicit state.  User rule
bodies are deeply embedded as `Prog`: a sequence of nested `fetch` calls
ending in a pure result.  Fuel bounds the recursion depth; `none` means the
run did not finish within the given fuel. -/

/-- `Entry<Result, Query>` (lib.rs:85-95).  `waiters` lists the thread ids of
registered waiters, in registration order (an `Unparker` is addressed by the
thread id it wakes). -/
inductive SEntry (Q R : Type) where
  | inProgress (owner : Nat) (waiters : List Nat)
  | complete (result : R) (dependencies : List Q)
  deriving DecidableEq

/-- The mutable state reachable from a `Context` (lib.rs:21-27), together
with an `unparks` log recording every `Unparker::unpark` call in order. -/
structure SeqState (Q R : Type) where
  store : List (Q × SEntry Q R)
  queryDependencies : List Q
  stealable : List Q
  thieves : List Nat
  threadDependencies : TDeps
  unparks : List Nat
  deriving DecidableEq

/-- Trace events.  `ruleStart q buf` records the content of the
`query_dependencies` buffer at the moment the user rule body for `q` is
invoked — immediately after the `RefCell::take` of lib.rs:117, so `buf` is
always `[]`.  `hit q` is a `try_fetch` answered from a `Complete` entry;
`stole q` marks entry into the work-stealing path. -/
inductive Ev (Q : Type) where
  | ruleStart (q : Q) (buf : List Q)
  | ruleEnd (q : Q)
  | hit (q : Q)
  | stole (q : Q)
  deriving DecidableEq

/-- `TryFetch` (lib.rs:97-101).  The `Parker` payload of `WaitFor` is
elided: parking is modelled inside the fetch loop. -/
inductive TF (Q R : Type) where
  | stole (q : Q)
  | waitFor
  | complete (r : R)
  deriving DecidableEq

/-- Normal return, or the `cyclic query detected` panic of lib.rs:110. -/
inductive ERes (α : Type) where
  | ok (a : α)
  | cyclic
  deriving DecidableEq

/-- Deep embedding of a user rule body (`Query::rule`, lib.rs:76): a
sequence of nested `Context::fetch` calls followed by a pure result. -/
inductive Prog (Q R : Type) where
  | ret (r : R)
  | fetchThen (q : Q) (k : R → Prog Q R)

/-- Interpreter outcome: `none` when out of fuel, otherwise the result (or
panic) together with the final state and the emitted trace. -/
abbrev SRes (Q R α : Type) := Option (ERes α × SeqState Q R × List (Ev Q))

section Seq

variable {Q R : Type} [DecidableEq Q]

/-- Publication of a completed entry (lib.rs:166-176, also lib.rs:56-66):
overwrite the entry with `Complete`, then, for each registered waiter in
order, remove its wait-for edge and unpark it. -/
def publishC (q : Q) (r : R) (deps : List Q) (s : SeqState Q R) : SeqState Q R :=
  let ws : List Nat :=
    match alookup q s.store with
    | some (SEntry.inProgress _ ws) => ws
    | _ => []
  { s with store := ainsert q (SEntry.complete r deps) s.store,
           threadDependencies := aremoveAll ws s.threadDependencies,
           unparks := s.unparks ++ ws }

/-- State after the waiter-registration block of `try_fetch`
(lib.rs:139-147): the caller `t` is appended to the entry's waiter list and
to `thieves`, and `deadlock_check` has inserted the wait-for edge
`t → owner`. -/
def regState (t : Nat) (q : Q) (owner : Nat) (ws : List Nat) (s : SeqState Q R) :
    SeqState Q R :=
  { s with store := ainsert q (SEntry.inProgress owner (ws ++ [t])) s.store,
           thieves := s.thieves ++ [t],
           threadDependencies := ainsert t owner s.threadDependencies }

/-- The mutually recursive interpreter functions at one fuel level. -/
structure Fns (Q R : Type) where
  fetch : Q → SeqState Q R → SRes Q R R
  tryFetch : Q → SeqState Q R → SRes Q R (TF Q R)
  rule : Q → SeqState Q R → SRes Q R (R × List Q)
  prog : Prog Q R → SeqState Q R → SRes Q R R
  steal : Q → SeqState Q R → SRes Q R Unit

/-- One level of the interpreter: every function at fuel `n + 1` calls its
callees at fuel `n`.  Structural recursion on the fuel, so concrete runs
evaluate by `rfl` / `decide`. -/
def mkFns (rules : Q → Prog Q R) (t : Nat) : Nat → Fns Q R
  | 0 =>
    { fetch := fun _ _ => none, tryFetch := fun _ _ => none,
      rule := fun _ _ => none, prog := fun _ _ => none, steal := fun _ _ => none }
  | fuel + 1 =>
    let p := mkFns rules t fuel
    { fetch := fun q s =>
        match p.tryFetch q s with
        | none => none
        | some (ERes.cyclic, s1, tr) => some (ERes.cyclic, s1, tr)
        | some (ERes.ok (TF.stole q'), s1, tr) =>
          match p.steal q' s1 with
          | none => none
          | some (ERes.cyclic, s2, tr') => some (ERes.cyclic, s2, tr ++ tr')
          | some (ERes.ok _, s2, tr') =>
            match p.fetch q s2 with
            | none => none
            | some (res, s3, tr'') => some (res, s3, tr ++ tr' ++ tr'')
        | some (ERes.ok TF.waitFor, s1, tr) =>
          match p.fetch q s1 with
          | none => none
          | some (res, s2, tr') => some (res, s2, tr ++ tr')
        | some (ERes.ok (TF.complete r), s1, tr) => some (ERes.ok r, s1, tr),
      tryFetch := fun q s =>
        match alookup q s.store with
        | some (SEntry.inProgress owner ws) =>
          match s.stealable with
          | q' :: rest =>
            some (ERes.ok (TF.stole q'), { s with stealable := rest }, [])
          | [] =>
            match deadlockCheckF fuel s.threadDependencies t owner with
            | none => none
            | some (WRes.ok, _) =>
              some (ERes.ok TF.waitFor, regState t q owner ws s, [])
            | some (WRes.cyclic, _) =>
              some (ERes.cyclic, regState t q owner ws s, [])
        | some (SEntry.complete r _) =>
          some (ERes.ok (TF.complete r), s, [Ev.hit q])
        | none =>
          match p.rule q { s with store := ainsert q (SEntry.inProgress t []) s.store } with
          | none => none
          | some (ERes.cyclic, s2, tr) => some (ERes.cyclic, s2, tr)
          | some (ERes.ok (r, deps), s2, tr) =>
            some (ERes.ok (TF.complete r), publishC q r deps s2, tr),
      rule := fun q s =>
        match p.prog (rules q) { s with queryDependencies := [] } with
        | none => none
        | some (ERes.cyclic, s2, tr) =>
          some (ERes.cyclic, s2, Ev.ruleStart q [] :: tr)
        | some (ERes.ok r, s2, tr) =>
          some (ERes.ok (r, s2.queryDependencies),
                { s2 with queryDependencies := s.queryDependencies ++ [q] },
                Ev.ruleStart q [] :: (tr ++ [Ev.ruleEnd q])),
      prog := fun pr s =>
        match pr with
        | Prog.ret r => some (ERes.ok r, s, [])
        | Prog.fetchThen q k =>
          match p.fetch q s with
          | none => none
          | some (ERes.cyclic, s1, tr) => some (ERes.cyclic, s1, tr)
          | some (ERes.ok r, s1, tr) =>
            match p.prog (k r) s1 with
            | none => none
            | some (res, s2, tr') => some (res, s2, tr ++ tr'),
      steal := fun q s =>
        match alookup q s.store with
        | some _ => some (ERes.ok (), s, [Ev.stole q])
        | none =>
          match p.rule q { s with store := ainsert q (SEntry.inProgress t []) s.store } with
          | none => none
          | some (ERes.cyclic, s2, tr) => some (ERes.cyclic, s2, Ev.stole q :: tr)
          | some (ERes.ok (r, deps), s2, tr) =>
            some (ERes.ok (), publishC q r deps s2, Ev.stole q :: tr) }

/-- `Context::fetch` (lib.rs:180-188).  `Parker::park` is modelled as
eventually returning (crossbeam parkers can be unparked at any time and may
also wake spuriously) followed by the loop retry. -/
def interpFetch (rules : Q → Prog Q R) (t fuel : Nat) (q : Q) (s : SeqState Q R) :
    SRes Q R R :=
  (mkFns rules t fuel).fetch q s

/-- `Context::try_fetch` (lib.rs:128-178). -/
def interpTryFetch (rules : Q → Prog Q R) (t fuel : Nat) (q : Q) (s : SeqState Q R) :
    SRes Q R (TF Q R) :=
  (mkFns rules t fuel).tryFetch q s

/-- `Context::rule` (lib.rs:116-122). -/
def interpRule (rules : Q → Prog Q R) (t fuel : Nat) (q : Q) (s : SeqState Q R) :
    SRes Q R (R × List Q) :=
  (mkFns rules t fuel).rule q s

/-- Execution of a rule body: the user-written sequence of nested `fetch`
calls (`Query::rule` implementations). -/
def interpProg (rules : Q → Prog Q R) (t fuel : Nat) (pr : Prog Q R) (s : SeqState Q R) :
    SRes Q R R :=
  (mkFns rules t fuel).prog pr s

/-- `Context::steal` / `Thievery::dispatch` (lib.rs:124-126 and 40-67). -/
def interpSteal (rules : Q → Prog Q R) (t fuel : Nat) (q : Q) (s : SeqState Q R) :
    SRes Q R Unit :=
  (mkFns rules t fuel).steal q s

end Seq

/-- A freshly constructed `Context`: empty storages, queues and graph. -/
def initSeq (Q R : Type) : SeqState Q R := ⟨[], [], [], [], [], []⟩

/-! ## Trace structure

`ruleStart`/`ruleEnd` events nest like brackets.  `depthRun tr d` is the
bracket depth after processing `tr` starting from depth `d` (`none` when an
end appears at depth 0), and `topEnds tr d` collects the queries whose rule
span closes at relative depth 1 — for the body trace of a rule, exactly the
rules completed by its directly nested `fetch` calls, in completion order.
`hit` and `stole` events never contribute. -/

section Trace

variable {Q : Type}

def depthRun : List (Ev Q) → Nat → Option Nat
  | [], d => some d
  | Ev.ruleStart _ _ :: tr, d => depthRun tr (d + 1)
  | Ev.ruleEnd _ :: tr, d + 1 => depthRun tr d
  | Ev.ruleEnd _ :: _, 0 => none
  | Ev.hit _ :: tr, d => depthRun tr d
  | Ev.stole _ :: tr, d => depthRun tr d

def topEnds : List (Ev Q) → Nat → List Q
  | [], _ => []
  | Ev.ruleStart _ _ :: tr, d => topEnds tr (d + 1)
  | Ev.ruleEnd q :: tr, 1 => q :: topEnds tr 0
  | Ev.ruleEnd _ :: tr, d + 2 => topEnds tr (d + 1)
  | Ev.ruleEnd _ :: tr, 0 => topEnds tr 0
  | Ev.hit _ :: tr, d => topEnds tr d
  | Ev.stole _ :: tr, d => topEnds tr d

/-- The queries of the `stole` events of a trace. -/
def stoles : List (Ev Q) → List Q
  | [] => []
  | Ev.stole q :: tr => q :: stoles tr
  | Ev.ruleStart _ _ :: tr => stoles tr
  | Ev.ruleEnd _ :: tr => stoles tr
  | Ev.hit _ :: tr => stoles tr

theorem stoles_append (t₁ t₂ : List (Ev Q)) :
    stoles (t₁ ++ t₂) = stoles t₁ ++ stoles t₂ := by
  induction t₁ with
  | nil => rfl
  | cons e tr ih => cases e <;> simp [stoles, ih]

theorem depthRun_append {t₁ : List (Ev Q)} {d d' : Nat} (t₂ : List (Ev Q))
    (h : depthRun t₁ d = some d') :
    depthRun (t₁ ++ t₂) d = depthRun t₂ d' := by
  induction t₁ generalizing d with
  | nil => simp [depthRun] at h; subst h; rfl
  | cons e tr ih =>
    cases e with
    | ruleStart q b => exact ih h
    | ruleEnd q =>
      cases d with
      | zero => simp [depthRun] at h
      | succ d => exact ih h
    | hit q => exact ih h
    | stole q => exact ih h

theorem depthRun_mono {tr : List (Ev Q)} {d d' : Nat}
    (h : depthRun tr d = some d') : depthRun tr (d + 1) = some (d' + 1) := by
  induction tr generalizing d with
  | nil => simp [depthRun] at h ⊢; omega
  | cons e tr ih =>
    cases e with
    | ruleStart q b => exact ih h
    | ruleEnd q =>
      cases d with
      | zero => simp [depthRun] at h
      | succ d => exact ih h
    | hit q => exact ih h
    | stole q => exact ih h

theorem topEnds_append {t₁ : List (Ev Q)} {d d' : Nat} (t₂ : List (Ev Q))
    (h : depthRun t₁ d = some d') :
    topEnds (t₁ ++ t₂) d = topEnds t₁ d ++ topEnds t₂ d' := by
  induction t₁ generalizing d with
  | nil => simp [depthRun] at h; subst h; simp [topEnds]
  | cons e tr ih =>
    cases e with
    | ruleStart q b =>
      simp only [List.cons_append, topEnds]
      exact ih h
    | ruleEnd q =>
      cases d with
      | zero => simp [depthRun] at h
      | succ d =>
        cases d with
        | zero =>
          simp only [List.cons_append, topEnds, List.append_eq]
          rw [ih h]
        | succ d =>
          simp only [List.cons_append, topEnds]
          exact ih h
    | hit q =>
      simp only [List.cons_append, topEnds]
      exact ih h
    | stole q =>
      simp only [List.cons_append, topEnds]
      exact ih h

/-- A balanced trace contributes no depth-1 closures when processed one
level up. -/
theorem topEnds_shift_nil {tr : List (Ev Q)} {d d' : Nat}
    (h : depthRun tr d = some d') : topEnds tr (d + 1) = [] := by
  induction tr generalizing d with
  | nil => simp [topEnds]
  | cons e tr ih =>
    cases e with
    | ruleStart q b => exact ih h
    | ruleEnd q =>
      cases d with
      | zero => simp [depthRun] at h
      | succ d =>
        show topEnds tr (d + 1) = []
        exact ih h
    | hit q => exact ih h
    | stole q => exact ih h

/-- Depth and collection for the trace emitted by a successful
`Context::rule` call: the body trace wrapped in its own start/end pair. -/
theorem wrapped_trace (q : Q) (b : List Q) {btr : List (Ev Q)}
    (h : depthRun btr 0 = some 0) :
    depthRun (Ev.ruleStart q b :: btr ++ [Ev.ruleEnd q]) 0 = some 0 ∧
    topEnds (Ev.ruleStart q b :: btr ++ [Ev.ruleEnd q]) 0 = [q] := by
  have h1 : depthRun btr 1 = some 1 := depthRun_mono h
  constructor
  · show depthRun (btr ++ [Ev.ruleEnd q]) 1 = some 0
    rw [depthRun_append _ h1]
    rfl
  · show topEnds (btr ++ [Ev.ruleEnd q]) 1 = [q]
    rw [topEnds_append _ h1, topEnds_shift_nil h]
    rfl

end Trace

/-! ## Unfolding equations for the interpreter -/

section InterpEq

variable {Q R : Type} [DecidableEq Q]
variable (rules : Q → Prog Q R) (t fuel : Nat) (s : SeqState Q R)

theorem interpFetch_zero (q : Q) : interpFetch rules t 0 q s = none := rfl

theorem interpTryFetch_zero (q : Q) : interpTryFetch rules t 0 q s = none := rfl

theorem interpRule_zero (q : Q) : interpRule rules t 0 q s = none := rfl

theorem interpProg_zero (pr : Prog Q R) : interpProg rules t 0 pr s = none := rfl

theorem interpFetch_succ (q : Q) :
    interpFetch rules t (fuel + 1) q s =
      match interpTryFetch rules t fuel q s with
      | none => none
      | some (ERes.cyclic, s1, tr) => some (ERes.cyclic, s1, tr)
      | some (ERes.ok (TF.stole q'), s1, tr) =>
        match interpSteal rules t fuel q' s1 with
        | none => none
        | some (ERes.cyclic, s2, tr') => some (ERes.cyclic, s2, tr ++ tr')
        | some (ERes.ok _, s2, tr') =>
          match interpFetch rules t fuel q s2 with
          | none => none
          | some (res, s3, tr'') => some (res, s3, tr ++ tr' ++ tr'')
      | some (ERes.ok TF.waitFor, s1, tr) =>
        match interpFetch rules t fuel q s1 with
        | none => none
        | some (res, s2, tr') => some (res, s2, tr ++ tr')
      | some (ERes.ok (TF.complete r), s1, tr) => some (ERes.ok r, s1, tr) := rfl

theorem interpTryFetch_succ (q : Q) :
    interpTryFetch rules t (fuel + 1) q s =
      match alookup q s.store with
      | some (SEntry.inProgress owner ws) =>
        match s.stealable with
        | q' :: rest =>
          some (ERes.ok (TF.stole q'), { s with stealable := rest }, [])
        | [] =>
          match deadlockCheckF fuel s.threadDependencies t owner with
          | none => none
          | some (WRes.ok, _) =>
            some (ERes.ok TF.waitFor, regState t q owner ws s, [])
          | some (WRes.cyclic, _) =>
            some (ERes.cyclic, regState t q owner ws s, [])
      | some (SEntry.complete r _) =>
        some (ERes.ok (TF.complete r), s, [Ev.hit q])
      | none =>
        match interpRule rules t fuel q
            { s with store := ainsert q (SEntry.inProgress t []) s.store } with
        | none => none
        | some (ERes.cyclic, s2, tr) => some (ERes.cyclic, s2, tr)
        | some (ERes.ok (r, deps), s2, tr) =>
          some (ERes.ok (TF.complete r), publishC q r deps s2, tr) := rfl

theorem interpRule_succ (q : Q) :
    interpRule rules t (fuel + 1) q s =
      match interpProg rules t fuel (rules q) { s with queryDependencies := [] } with
      | none => none
      | some (ERes.cyclic, s2, tr) =>
        some (ERes.cyclic, s2, Ev.ruleStart q [] :: tr)
      | some (ERes.ok r, s2, tr) =>
        some (ERes.ok (r, s2.queryDependencies),
              { s2 with queryDependencies := s.queryDependencies ++ [q] },
              Ev.ruleStart q [] :: (tr ++ [Ev.ruleEnd q])) := rfl

theorem interpProg_succ (pr : Prog Q R) :
    interpProg rules t (fuel + 1) pr s =
      match pr with
      | Prog.ret r => some (ERes.ok r, s, [])
      | Prog.fetchThen q k =>
        match interpFetch rules t fuel q s with
        | none => none
        | some (ERes.cyclic, s1, tr) => some (ERes.cyclic, s1, tr)
        | some (ERes.ok r, s1, tr) =>
          match interpProg rules t fuel (k r) s1 with
          | none => none
          | some (res, s2, tr') => some (res, s2, tr ++ tr') := rfl

theorem interpSteal_succ (q : Q) :
    interpSteal rules t (fuel + 1) q s =
      match alookup q s.store with
      | some _ => some (ERes.ok (), s, [Ev.stole q])
      | none =>
        match interpRule rules t fuel q
            { s with store := ainsert q (SEntry.inProgress t []) s.store } with
        | none => none
        | some (ERes.cyclic, s2, tr) => some (ERes.cyclic, s2, Ev.stole q :: tr)
        | some (ERes.ok (r, deps), s2, tr) =>
          some (ERes.ok (), publishC q r deps s2, Ev.stole q :: tr) := rfl

end InterpEq

/-! ## Global laws of the interpreter, by induction on the fuel -/

section Laws

variable {Q R : Type} [DecidableEq Q]

/-- Structural laws of every terminating run, proved simultaneously for the
four mutually recursive interpreter functions: the steal queue stays empty
and the steal path is never entered; on normal return the trace is
balanced and the `query_dependencies` buffer grows by exactly the queries
whose rule this run completed at top level (`topEnds`); `try_fetch` never
returns `Stole`; and a successful `rule` call records as dependencies
exactly the rules completed by its directly nested fetches, appends its own
query to the saved outer buffer, and wraps its body trace in a
start/end pair. -/
theorem interp_laws (rules : Q → Prog Q R) (t : Nat) : ∀ fuel : Nat,
    (∀ pr s res s' tr, interpProg rules t fuel pr s = some (res, s', tr) →
      s.stealable = [] →
      s'.stealable = [] ∧ stoles tr = [] ∧
        ∀ r, res = ERes.ok r →
          depthRun tr 0 = some 0 ∧
          s'.queryDependencies = s.queryDependencies ++ topEnds tr 0) ∧
    (∀ q s res s' tr, interpFetch rules t fuel q s = some (res, s', tr) →
      s.stealable = [] →
      s'.stealable = [] ∧ stoles tr = [] ∧
        ∀ r, res = ERes.ok r →
          depthRun tr 0 = some 0 ∧
          s'.queryDependencies = s.queryDependencies ++ topEnds tr 0) ∧
    (∀ q s res s' tr, interpTryFetch rules t fuel q s = some (res, s', tr) →
      s.stealable = [] →
      s'.stealable = [] ∧ stoles tr = [] ∧
        ∀ tf, res = ERes.ok tf →
          (∀ q', tf ≠ TF.stole q') ∧ depthRun tr 0 = some 0 ∧
          s'.queryDependencies = s.queryDependencies ++ topEnds tr 0) ∧
    (∀ q s res s' tr, interpRule rules t fuel q s = some (res, s', tr) →
      s.stealable = [] →
      s'.stealable = [] ∧ stoles tr = [] ∧
        ∀ r deps, res = ERes.ok (r, deps) →
          ∃ btr, tr = Ev.ruleStart q [] :: btr ++ [Ev.ruleEnd q] ∧
            depthRun btr 0 = some 0 ∧ deps = topEnds btr 0 ∧
            s'.queryDependencies = s.queryDependencies ++ [q]) := by
  intro fuel
  induction fuel with
  | zero =>
    refine ⟨fun pr s res s' tr h => ?_, fun q s res s' tr h => ?_,
            fun q s res s' tr h => ?_, fun q s res s' tr h => ?_⟩
    · rw [interpProg_zero] at h; exact Option.noConfusion h
    · rw [interpFetch_zero] at h; exact Option.noConfusion h
    · rw [interpTryFetch_zero] at h; exact Option.noConfusion h
    · rw [interpRule_zero] at h; exact Option.noConfusion h
  | succ fuel ih =>
    obtain ⟨ihP, ihF, ihT, ihR⟩ := ih
    refine ⟨?_, ?_, ?_, ?_⟩
    -- interpProg
    · intro pr s res s' tr h hst
      rw [interpProg_succ] at h
      split at h
      · simp only [Option.some.injEq, Prod.mk.injEq] at h
        obtain ⟨h1, h2, h3⟩ := h
        subst h1; subst h2; subst h3
        exact ⟨hst, rfl, fun r' hr => ⟨rfl, by simp [topEnds]⟩⟩
      · rename_i q k
        split at h
        · exact Option.noConfusion h
        · rename_i s1 tr1 hf
          simp only [Option.some.injEq, Prod.mk.injEq] at h
          obtain ⟨h1, h2, h3⟩ := h
          subst h1; subst h2; subst h3
          obtain ⟨hA, hB, -⟩ := ihF q s _ _ _ hf hst
          exact ⟨hA, hB, fun r hr => ERes.noConfusion hr⟩
        · rename_i r1 s1 tr1 hf
          split at h
          · exact Option.noConfusion h
          · rename_i res2 s2 tr2 hp
            simp only [Option.some.injEq, Prod.mk.injEq] at h
            obtain ⟨h1, h2, h3⟩ := h
            subst h1; subst h2; subst h3
            obtain ⟨hA1, hB1, hC1⟩ := ihF q s _ _ _ hf hst
            obtain ⟨hd1, hq1⟩ := hC1 r1 rfl
            obtain ⟨hA2, hB2, hC2⟩ := ihP (k r1) s1 _ _ _ hp hA1
            refine ⟨hA2, ?_, ?_⟩
            · rw [stoles_append, hB1, hB2]; rfl
            · intro r hr
              obtain ⟨hd2, hq2⟩ := hC2 r hr
              refine ⟨by rw [depthRun_append tr2 hd1]; exact hd2, ?_⟩
              rw [hq2, hq1, topEnds_append tr2 hd1, List.append_assoc]
    -- interpFetch
    · intro q s res s' tr h hst
      rw [interpFetch_succ] at h
      split at h
      · exact Option.noConfusion h
      · rename_i s1 tr1 ht
        simp only [Option.some.injEq, Prod.mk.injEq] at h
        obtain ⟨h1, h2, h3⟩ := h
        subst h1; subst h2; subst h3
        obtain ⟨hA, hB, -⟩ := ihT q s _ _ _ ht hst
        exact ⟨hA, hB, fun r hr => ERes.noConfusion hr⟩
      · rename_i q' s1 tr1 ht
        obtain ⟨hA1, hB1, hC1⟩ := ihT q s _ _ _ ht hst
        obtain ⟨hns, -, -⟩ := hC1 (TF.stole q') rfl
        exact absurd rfl (hns q')
      · rename_i s1 tr1 ht
        obtain ⟨hA1, hB1, hC1⟩ := ihT q s _ _ _ ht hst
        obtain ⟨hns, hd1, hq1⟩ := hC1 TF.waitFor rfl
        split at h
        · exact Option.noConfusion h
        · rename_i res2 s2 tr2 hf2
          simp only [Option.some.injEq, Prod.mk.injEq] at h
          obtain ⟨h1, h2, h3⟩ := h
          subst h1; subst h2; subst h3
          obtain ⟨hA2, hB2, hC2⟩ := ihF q s1 _ _ _ hf2 hA1
          refine ⟨hA2, ?_, ?_⟩
          · rw [stoles_append, hB1, hB2]; rfl
          · intro r hr
            obtain ⟨hd2, hq2⟩ := hC2 r hr
            refine ⟨by rw [depthRun_append tr2 hd1]; exact hd2, ?_⟩
            rw [hq2, hq1, topEnds_append tr2 hd1, List.append_assoc]
      · rename_i r1 s1 tr1 ht
        obtain ⟨hA1, hB1, hC1⟩ := ihT q s _ _ _ ht hst
        obtain ⟨hns, hd1, hq1⟩ := hC1 (TF.complete r1) rfl
        simp only [Option.some.injEq, Prod.mk.injEq] at h
        obtain ⟨h1, h2, h3⟩ := h
        subst h1; subst h2; subst h3
        refine ⟨hA1, hB1, ?_⟩
        intro r hr
        injection hr with hrr
        subst hrr
        exact ⟨hd1, hq1⟩
    -- interpTryFetch
    · intro q s res s' tr h hst
      rw [interpTryFetch_succ] at h
      split at h
      · rename_i owner ws hl
        split at h
        · rename_i q' rest heq
          rw [hst] at heq
          exact List.noConfusion heq
        · split at h
          · exact Option.noConfusion h
          · rename_i td hd
            simp only [Option.some.injEq, Prod.mk.injEq] at h
            obtain ⟨h1, h2, h3⟩ := h
            subst h1; subst h2; subst h3
            refine ⟨hst, rfl, ?_⟩
            intro tf htf
            injection htf with htf
            subst htf
            exact ⟨fun q' hq' => TF.noConfusion hq', rfl, by simp [regState, topEnds]⟩
          · rename_i td hd
            simp only [Option.some.injEq, Prod.mk.injEq] at h
            obtain ⟨h1, h2, h3⟩ := h
            subst h1; subst h2; subst h3
            exact ⟨hst, rfl, fun tf htf => ERes.noConfusion htf⟩
      · rename_i r1 deps1 hl
        simp only [Option.some.injEq, Prod.mk.injEq] at h
        obtain ⟨h1, h2, h3⟩ := h
        subst h1; subst h2; subst h3
        refine ⟨hst, rfl, ?_⟩
        intro tf htf
        injection htf with htf
        subst htf
        exact ⟨fun q' hq' => TF.noConfusion hq', rfl, by simp [topEnds]⟩
      · rename_i hl
        split at h
        · exact Option.noConfusion h
        · rename_i s2 tr2 hr
          simp only [Option.some.injEq, Prod.mk.injEq] at h
          obtain ⟨h1, h2, h3⟩ := h
          subst h1; subst h2; subst h3
          obtain ⟨hA, hB, -⟩ := ihR q _ _ _ _ hr hst
          exact ⟨hA, hB, fun tf htf => ERes.noConfusion htf⟩
        · rename_i r1 deps1 s2 tr2 hr
          simp only [Option.some.injEq, Prod.mk.injEq] at h
          obtain ⟨h1, h2, h3⟩ := h
          subst h1; subst h2; subst h3
          obtain ⟨hA, hB, hC⟩ := ihR q _ _ _ _ hr hst
          obtain ⟨btr, hbtr, hdb, hdeps, hqd⟩ := hC r1 deps1 rfl
          subst hbtr
          obtain ⟨hdw, htw⟩ := wrapped_trace q [] hdb
          refine ⟨hA, hB, ?_⟩
          intro tf htf
          injection htf with htf
          subst htf
          refine ⟨fun q' hq' => TF.noConfusion hq', hdw, ?_⟩
          show s2.queryDependencies = s.queryDependencies ++
            topEnds (Ev.ruleStart q [] :: btr ++ [Ev.ruleEnd q]) 0
          rw [htw]
          exact hqd
    -- interpRule
    · intro q s res s' tr h hst
      rw [interpRule_succ] at h
      split at h
      · exact Option.noConfusion h
      · rename_i s2 tr2 hp
        simp only [Option.some.injEq, Prod.mk.injEq] at h
        obtain ⟨h1, h2, h3⟩ := h
        subst h1; subst h2; subst h3
        obtain ⟨hA, hB, -⟩ := ihP (rules q) _ _ _ _ hp hst
        refine ⟨hA, ?_, fun r deps hrd => ERes.noConfusion hrd⟩
        show stoles tr2 = []
        exact hB
      · rename_i r1 s2 tr2 hp
        simp only [Option.some.injEq, Prod.mk.injEq] at h
        obtain ⟨h1, h2, h3⟩ := h
        subst h1; subst h2; subst h3
        obtain ⟨hA, hB, hC⟩ := ihP (rules q) _ _ _ _ hp hst
        obtain ⟨hd2, hq2⟩ := hC r1 rfl
        refine ⟨hA, ?_, ?_⟩
        · show stoles (tr2 ++ [Ev.ruleEnd q]) = []
          rw [stoles_append, hB]; rfl
        · intro r deps hrd
          injection hrd with hrd
          simp only [Prod.mk.injEq] at hrd
          obtain ⟨e1, e2⟩ := hrd
          subst e1; subst e2
          refine ⟨tr2, rfl, hd2, ?_, rfl⟩
          simpa using hq2

end Laws

/-! ## The wait branch of `try_fetch` (lib.rs:132-148) -/

section WaitBranch

variable {Q R : Type} [DecidableEq Q]

theorem tryFetch_wait_ok (rules : Q → Prog Q R) (t fuel : Nat) (q : Q)
    (s : SeqState Q R) (owner : Nat) (ws : List Nat)
    (hl : alookup q s.store = some (SEntry.inProgress owner ws))
    (hst : s.stealable = [])
    (hw : walkF fuel (ainsert t owner s.threadDependencies) t owner = some WRes.ok) :
    interpTryFetch rules t (fuel + 1) q s =
      some (ERes.ok TF.waitFor, regState t q owner ws s, []) := by
  rw [interpTryFetch_succ, hl, hst]
  show (match deadlockCheckF fuel s.threadDependencies t owner with
        | none => (none : SRes Q R (TF Q R))
        | some (WRes.ok, _) => some (ERes.ok TF.waitFor, regState t q owner ws s, [])
        | some (WRes.cyclic, _) => some (ERes.cyclic, regState t q owner ws s, [])) =
    some (ERes.ok TF.waitFor, regState t q owner ws s, [])
  rw [deadlockCheckF, hw]
  rfl

theorem tryFetch_wait_cyclic (rules : Q → Prog Q R) (t fuel : Nat) (q : Q)
    (s : SeqState Q R) (owner : Nat) (ws : List Nat)
    (hl : alookup q s.store = some (SEntry.inProgress owner ws))
    (hst : s.stealable = [])
    (hw : walkF fuel (ainsert t owner s.threadDependencies) t owner = some WRes.cyclic) :
    interpTryFetch rules t (fuel + 1) q s =
      some (ERes.cyclic, regState t q owner ws s, []) := by
  rw [interpTryFetch_succ, hl, hst]
  show (match deadlockCheckF fuel s.threadDependencies t owner with
        | none => (none : SRes Q R (TF Q R))
        | some (WRes.ok, _) => some (ERes.ok TF.waitFor, regState t q owner ws s, [])
        | some (WRes.cyclic, _) => some (ERes.cyclic, regState t q owner ws s, [])) =
    some (ERes.cyclic, regState t q owner ws s, [])
  rw [deadlockCheckF, hw]
  rfl

end WaitBranch

/-! ## Concrete scenarios -/

/-- Rules for the dependency-recording scenario: query 1 is a leaf, query
2's rule fetches query 1 and adds one. -/
def rulesC2 : Nat → Prog Nat Nat
  | 1 => Prog.ret 10
  | 2 => Prog.fetchThen 1 (fun r => Prog.ret (r + 1))
  | _ => Prog.ret 0

/-- Every query's rule immediately fetches the same query again. -/
def rulesSelf : Nat → Prog Nat Nat := fun _ => Prog.fetchThen 0 (fun r => Prog.ret r)

/-- Rules that never fetch. -/
def rulesTriv : Nat → Prog Nat Nat := fun _ => Prog.ret 0

/-- State in which query 1 is already completed with result 10. -/
def sC2w : SeqState Nat Nat := ⟨[(1, SEntry.complete 10 [])], [], [], [], [], []⟩

/-- State in which query 0 is in progress, owned by thread 0 itself. -/
def sSelf : SeqState Nat Nat := ⟨[(0, SEntry.inProgress 0 [])], [], [], [], [], []⟩

/-- State seen by thread 0: query 5 is in progress on thread 1, and thread
1 is already waiting on thread 0 (wait-for edge 1 → 0). -/
def sC4 : SeqState Nat Nat := ⟨[(5, SEntry.inProgress 1 [])], [], [], [], [(1, 0)], []⟩

/-! ## Claims settled on the sequential model -/

/-- C2 counterexample: fetch query 1 (completing it), then fetch query 2,
whose rule fetches query 1 again — answered from the cache, as the `hit 1`
event between `ruleStart 2` and `ruleEnd 2` shows.  The dependency list
stored in query 2's `Complete` entry is `[]`, not `[1]`: a nested fetch
answered from the cache is not recorded, contradicting the claim that the
stored list includes every nested fetch. -/
theorem c2_counterexample :
    interpProg rulesC2 0 12
        (Prog.fetchThen 1 (fun _ => Prog.fetchThen 2 (fun r2 => Prog.ret r2)))
        (initSeq Nat Nat) =
      some (ERes.ok 11,
        ⟨[(2, SEntry.complete 11 []), (1, SEntry.complete 10 [])], [1, 2],
          [], [], [], []⟩,
        [Ev.ruleStart 1 [], Ev.ruleEnd 1, Ev.ruleStart 2 [], Ev.hit 1,
          Ev.ruleEnd 2]) ∧
    alookup 2 [(2, SEntry.complete 11 ([] : List Nat)),
               (1, SEntry.complete 10 [])] =
      some (SEntry.complete 11 []) ∧
    alookup 2 [(2, SEntry.complete 11 ([] : List Nat)),
               (1, SEntry.complete 10 [])] ≠
      some (SEntry.complete 11 [1]) :=
  ⟨by decide, by decide, by decide⟩

/-- C2 amended: the dependency list stored by a completed rule equals
exactly the queries whose rules were completed by its directly nested
fetch calls, in invocation order (`topEnds` of the body trace at relative
depth 1).  Nested fetches answered from the cache or by waiting (`hit`
events) contribute nothing, and the query's own identifier is appended to
the outer buffer only after the rule returns. -/
theorem c2_amended_dependency_recording (rules : Nat → Prog Nat Nat)
    (t fuel : Nat) (q : Nat) (s s' : SeqState Nat Nat) (r : Nat)
    (deps : List Nat) (tr : List (Ev Nat))
    (hst : s.stealable = [])
    (h : interpRule rules t fuel q s = some (ERes.ok (r, deps), s', tr)) :
    ∃ btr, tr = Ev.ruleStart q [] :: btr ++ [Ev.ruleEnd q] ∧
      depthRun btr 0 = some 0 ∧ deps = topEnds btr 0 ∧
      s'.queryDependencies = s.queryDependencies ++ [q] := by
  obtain ⟨-, -, hC⟩ := (interp_laws rules t fuel).2.2.2 q s _ _ _ h hst
  exact hC r deps rfl

/-- Witness for the amended C2: query 2's rule runs against a cache
holding query 1; the recorded dependency list is `topEnds [hit 1] 0 = []`. -/
theorem c2_amended_dependency_recording_witness :
    (sC2w.stealable = [] ∧
      interpRule rulesC2 0 8 2 sC2w =
        some (ERes.ok (11, []), ⟨[(1, SEntry.complete 10 [])], [2], [], [], [], []⟩,
              [Ev.ruleStart 2 [], Ev.hit 1, Ev.ruleEnd 2])) ∧
    (∃ btr, [Ev.ruleStart 2 [], Ev.hit 1, Ev.ruleEnd 2] =
        Ev.ruleStart 2 [] :: btr ++ [Ev.ruleEnd 2] ∧
      depthRun btr 0 = some 0 ∧ ([] : List Nat) = topEnds btr 0 ∧
      (⟨[(1, SEntry.complete 10 [])], [2], [], [], [], []⟩ :
          SeqState Nat Nat).queryDependencies = sC2w.queryDependencies ++ [2]) :=
  ⟨⟨rfl, by decide⟩,
    c2_amended_dependency_recording rulesC2 0 8 2 sC2w _ 11 [] _ rfl (by decide)⟩

/-- C3 counterexample: run of the directly self-recursive query 0.  The
cyclic-query error is raised, but the only rule invocation in the trace
begins with an empty `query_dependencies` buffer (`ruleStart 0 []`), so
the query's identifier was never pushed onto any per-thread sequence
before its rule ran — the code keeps no dependency stack — and the error
state retains the waiter registration and the self wait-for edge, showing
the failure happened inside the wait branch of `try_fetch`, not through a
pre-rule stack membership check. -/
theorem c3_counterexample :
    interpFetch rulesSelf 0 10 0 (initSeq Nat Nat) =
      some (ERes.cyclic,
        ⟨[(0, SEntry.inProgress 0 [0])], [], [], [0], [(0, 0)], []⟩,
        [Ev.ruleStart 0 []]) ∧
    (0 : Nat) ∉ ([] : List Nat) :=
  ⟨by decide, by decide⟩

/-- C3 amended: the engine maintains no dependency stack and performs no
membership check before running a rule — every `rule` invocation starts
with an emptied buffer (second conjunct: each rule trace opens with
`ruleStart q []`).  A same-thread cycle, i.e. fetching a query whose
in-progress entry is owned by the calling thread itself, is instead
detected inside `try_fetch`: the caller registers as a waiter, inserts the
self edge `t → t`, and the deadlock walk fails immediately with the
cyclic-query error — before parking and without invoking any rule (empty
trace), but after the registrations (final state `regState`). -/
theorem c3_amended_no_stack_self_cycle (rules : Nat → Prog Nat Nat)
    (t fuel : Nat) (q : Nat) (s : SeqState Nat Nat) (ws : List Nat)
    (hl : alookup q s.store = some (SEntry.inProgress t ws))
    (hst : s.stealable = []) :
    interpTryFetch rules t (fuel + 2) q s =
      some (ERes.cyclic, regState t q t ws s, []) ∧
    (∀ fuel' q' s0 res s1 tr, interpRule rules t fuel' q' s0 = some (res, s1, tr) →
      ∃ btr, tr = Ev.ruleStart q' [] :: btr) := by
  constructor
  · apply tryFetch_wait_cyclic rules t (fuel + 1) q s t ws hl hst
    have hreach : iterS (ainsert t t s.threadDependencies) t 1 = some t := by
      simp [iterS, alookup_ainsert_self]
    exact walkF_cyclic_of_reaches (le_refl 1) (by omega) hreach
  · intro fuel' q' s0 res s1 tr h
    cases fuel' with
    | zero => rw [interpRule_zero] at h; exact Option.noConfusion h
    | succ fuel' =>
      rw [interpRule_succ] at h
      split at h
      · exact Option.noConfusion h
      · rename_i s2 tr2 hp
        simp only [Option.some.injEq, Prod.mk.injEq] at h
        exact ⟨tr2, h.2.2.symm⟩
      · rename_i r1 s2 tr2 hp
        simp only [Option.some.injEq, Prod.mk.injEq] at h
        exact ⟨tr2 ++ [Ev.ruleEnd q'], h.2.2.symm⟩

/-- Witness for the amended C3: thread 0 fetches query 0 whose entry it
owns itself; `try_fetch` fails with the cyclic error and the registration
state. -/
theorem c3_amended_no_stack_self_cycle_witness :
    (alookup 0 sSelf.store = some (SEntry.inProgress 0 []) ∧
      sSelf.stealable = []) ∧
    interpTryFetch rulesSelf 0 2 0 sSelf =
      some (ERes.cyclic, regState 0 0 0 [] sSelf, []) :=
  ⟨⟨by decide, rfl⟩,
    (c3_amended_no_stack_self_cycle rulesSelf 0 0 0 sSelf [] (by decide) rfl).1⟩

/-- C4: when `try_fetch` finds an entry in progress on thread `owner` and
(the steal queue being empty) takes the wait branch, it inserts the
wait-for edge `t → owner` (visible in the final state in both outcomes)
and walks the updated graph starting at `owner`: if the successor chain
reaches the caller's own id, the operation aborts with the cyclic-query
error; if the walk instead stops at a thread with no outgoing edge, the
caller proceeds to wait. -/
theorem c4_wait_for_graph_cycle_detection (rules : Nat → Prog Nat Nat)
    (t fuel : Nat) (q : Nat) (s : SeqState Nat Nat) (owner : Nat)
    (ws : List Nat)
    (hl : alookup q s.store = some (SEntry.inProgress owner ws))
    (hst : s.stealable = []) :
    (∀ n, 1 ≤ n → n ≤ fuel →
      iterS (ainsert t owner s.threadDependencies) owner n = some t →
      interpTryFetch rules t (fuel + 1) q s =
        some (ERes.cyclic, regState t q owner ws s, [])) ∧
    (walkF fuel (ainsert t owner s.threadDependencies) t owner = some WRes.ok →
      interpTryFetch rules t (fuel + 1) q s =
        some (ERes.ok TF.waitFor, regState t q owner ws s, [])) ∧
    alookup t (regState t q owner ws s).threadDependencies = some owner := by
  refine ⟨?_, ?_, ?_⟩
  · intro n h1 h2 hreach
    exact tryFetch_wait_cyclic rules t fuel q s owner ws hl hst
      (walkF_cyclic_of_reaches h1 h2 hreach)
  · intro hw
    exact tryFetch_wait_ok rules t fuel q s owner ws hl hst hw
  · exact alookup_ainsert_self t owner s.threadDependencies

/-- Witness for C4: thread 0 waits on query 5 owned by thread 1 while
thread 1 already waits on thread 0; the chain 1 → 0 reaches the caller in
one step and `try_fetch` aborts with the cyclic-query error. -/
theorem c4_wait_for_graph_cycle_detection_witness :
    (alookup 5 sC4.store = some (SEntry.inProgress 1 []) ∧
      sC4.stealable = [] ∧
      iterS (ainsert 0 1 sC4.threadDependencies) 1 1 = some 0) ∧
    interpTryFetch rulesTriv 0 4 5 sC4 =
      some (ERes.cyclic, regState 0 5 1 [] sC4, []) :=
  ⟨⟨by decide, rfl, by decide⟩,
    (c4_wait_for_graph_cycle_detection rulesTriv 0 3 5 sC4 1 [] (by decide) rfl).1
      1 (by decide) (by decide) (by decide)⟩

/-- C5 counterexample: the self-recursive run aborts with the cyclic-query
error, but the failing thread's wait-for edge `(0, 0)`, its waiter
registration on the entry, and its `thieves` registration all remain in
the final state — nothing is removed while unwinding, contradicting the
claim that the failing thread removes every edge and registration it had
added. -/
theorem c5_counterexample :
    interpFetch rulesSelf 0 10 0 (initSeq Nat Nat) =
      some (ERes.cyclic,
        ⟨[(0, SEntry.inProgress 0 [0])], [], [], [0], [(0, 0)], []⟩,
        [Ev.ruleStart 0 []]) ∧
    alookup 0 ([((0 : Nat), (0 : Nat))] : TDeps) = some 0 ∧
    alookup 0 ([(0, SEntry.inProgress 0 [0])] :
        List (Nat × SEntry Nat Nat)) = some (SEntry.inProgress 0 [0]) ∧
    (0 : Nat) ∈ [(0 : Nat)] :=
  ⟨by decide, by decide, by decide, by decide⟩

/-- C5 amended: when the deadlock check fails, `try_fetch` unwinds with the
cyclic-query error and the target entry is not marked `Complete` — but the
failing thread's wait-for edge, its waiter registration and its `thieves`
registration are left in place, not removed. -/
theorem c5_amended_failure_leaves_registrations (rules : Nat → Prog Nat Nat)
    (t fuel : Nat) (q : Nat) (s : SeqState Nat Nat) (owner : Nat)
    (ws : List Nat)
    (hl : alookup q s.store = some (SEntry.inProgress owner ws))
    (hst : s.stealable = [])
    (hw : walkF fuel (ainsert t owner s.threadDependencies) t owner =
      some WRes.cyclic) :
    interpTryFetch rules t (fuel + 1) q s =
      some (ERes.cyclic, regState t q owner ws s, []) ∧
    alookup q (regState t q owner ws s).store =
      some (SEntry.inProgress owner (ws ++ [t])) ∧
    alookup t (regState t q owner ws s).threadDependencies = some owner ∧
    t ∈ (regState t q owner ws s).thieves := by
  refine ⟨tryFetch_wait_cyclic rules t fuel q s owner ws hl hst hw, ?_, ?_, ?_⟩
  · exact alookup_ainsert_self q _ s.store
  · exact alookup_ainsert_self t owner s.threadDependencies
  · simp [regState]

/-- Witness for the amended C5 at the self-cycle input. -/
theorem c5_amended_failure_leaves_registrations_witness :
    (alookup 0 sSelf.store = some (SEntry.inProgress 0 []) ∧
      sSelf.stealable = [] ∧
      walkF 1 (ainsert 0 0 sSelf.threadDependencies) 0 0 = some WRes.cyclic) ∧
    (interpTryFetch rulesSelf 0 2 0 sSelf =
        some (ERes.cyclic, regState 0 0 0 [] sSelf, []) ∧
      alookup 0 (regState 0 0 0 [] sSelf).store =
        some (SEntry.inProgress 0 [0]) ∧
      alookup 0 (regState 0 0 0 [] sSelf).threadDependencies = some 0 ∧
      0 ∈ (regState 0 0 0 [] sSelf).thieves) :=
  ⟨⟨by decide, rfl, by decide⟩,
    c5_amended_failure_leaves_registrations rulesSelf 0 1 0 sSelf 0 []
      (by decide) rfl (by decide)⟩

/-- C7: a fetch of a key whose entry is `Complete` returns the memoized
result (a clone of the stored value), leaves the whole state unchanged,
and invokes no rule — the trace is the single cache-hit event.  Since the
state is returned unchanged, every subsequent fetch of the key behaves
identically, indefinitely. -/
theorem c7_memoization (rules : Nat → Prog Nat Nat) (t fuel : Nat) (q : Nat)
    (s : SeqState Nat Nat) (r : Nat) (deps : List Nat)
    (hl : alookup q s.store = some (SEntry.complete r deps)) :
    interpFetch rules t (fuel + 2) q s = some (ERes.ok r, s, [Ev.hit q]) := by
  rw [interpFetch_succ, interpTryFetch_succ, hl]

/-- Witness for C7: fetching the completed query 1 returns 10 and leaves
the state untouched. -/
theorem c7_memoization_witness :
    alookup 1 sC2w.store = some (SEntry.complete 10 []) ∧
    interpFetch rulesC2 0 5 1 sC2w = some (ERes.ok 10, sC2w, [Ev.hit 1]) :=
  ⟨by decide, c7_memoization rulesC2 0 3 1 sC2w 10 [] (by decide)⟩

/-- C9: no operation of the engine ever pushes to the steal queue, so from
an empty steal queue (in particular the freshly constructed `initSeq`
context) the queue is empty in every state a run can reach, `fetch` never
enters the steal path (no `stole` event in any trace), and `try_fetch`
never returns the `Stole` variant. -/
theorem c9_steal_queue_never_used (rules : Nat → Prog Nat Nat) (t : Nat) :
    (∀ fuel q s res s' tr, interpFetch rules t fuel q s = some (res, s', tr) →
      s.stealable = [] → s'.stealable = [] ∧ stoles tr = []) ∧
    (∀ fuel q s tf s' tr,
      interpTryFetch rules t fuel q s = some (ERes.ok tf, s', tr) →
      s.stealable = [] → ∀ q', tf ≠ TF.stole q') := by
  constructor
  · intro fuel q s res s' tr h hst
    obtain ⟨hA, hB, -⟩ := (interp_laws rules t fuel).2.1 q s _ _ _ h hst
    exact ⟨hA, hB⟩
  · intro fuel q s tf s' tr h hst
    obtain ⟨-, -, hC⟩ := (interp_laws rules t fuel).2.2.1 q s _ _ _ h hst
    exact (hC tf rfl).1

/-- Witness for C9 on the two-query run from the fresh context. -/
theorem c9_steal_queue_never_used_witness :
    ((initSeq Nat Nat).stealable = [] ∧
      interpFetch rulesC2 0 8 2 (initSeq Nat Nat) =
        some (ERes.ok 11,
          ⟨[(2, SEntry.complete 11 [1]), (1, SEntry.complete 10 [])], [2],
            [], [], [], []⟩,
          [Ev.ruleStart 2 [], Ev.ruleStart 1 [], Ev.ruleEnd 1,
            Ev.ruleEnd 2])) ∧
    ((⟨[(2, SEntry.complete 11 [1]), (1, SEntry.complete 10 [])], [2],
        [], [], [], []⟩ : SeqState Nat Nat).stealable = [] ∧
      stoles [Ev.ruleStart 2 ([] : List Nat), Ev.ruleStart 1 [], Ev.ruleEnd 1,
        Ev.ruleEnd 2] = []) :=
  ⟨⟨rfl, by decide⟩,
    (c9_steal_queue_never_used rulesC2 0).1 8 2 (initSeq Nat Nat)
      (ERes.ok 11)
      ⟨[(2, SEntry.complete 11 [1]), (1, SEntry.complete 10 [])], [2],
        [], [], [], []⟩
      [Ev.ruleStart 2 [], Ev.ruleStart 1 [], Ev.ruleEnd 1, Ev.ruleEnd 2]
      (by decide) rfl⟩

/-- C10 counterexample: with wait-for edges 0 → 1 and 1 → 0 and caller id
2, the deadlock-check walk started at 0 runs forever — `walkF` is out of
fuel for every fuel — refuting the claim that `deadlock_check` terminates
on every edge-map configuration. -/
theorem c10_counterexample : ¬ walkTerminates [(0, 1), (1, 0)] 2 0 := by
  have key : ∀ fuel, walkF fuel [(0, 1), (1, 0)] 2 0 = none ∧
      walkF fuel [(0, 1), (1, 0)] 2 1 = none := by
    intro fuel
    induction fuel with
    | zero => exact ⟨rfl, rfl⟩
    | succ fuel ih =>
      constructor
      · show walkF (fuel + 1) [(0, 1), (1, 0)] 2 0 = none
        rw [walkF]
        simpa [alookup] using ih.2
      · show walkF (fuel + 1) [(0, 1), (1, 0)] 2 1 = none
        rw [walkF]
        simpa [alookup] using ih.1
  rintro ⟨fuel, hs⟩
  rw [(key fuel).1] at hs
  simp at hs

/-- C10 amended: the deadlock-check walk terminates exactly when the
successor chain from the starting thread reaches either a thread with no
outgoing edge or the caller's own id; when the chain enters a cycle of
edges avoiding the caller's id, the walk runs forever. -/
theorem c10_amended_walk_termination (td : TDeps) (me st : Nat) :
    walkTerminates td me st ↔
      ∃ n x, iterS td st n = some x ∧
        (alookup x td = none ∨ alookup x td = some me) := by
  constructor
  · rintro ⟨fuel, h⟩
    rw [Option.isSome_iff_exists] at h
    obtain ⟨r, h⟩ := h
    exact stop_of_walkF h
  · rintro ⟨n, x, hx, hstop⟩
    exact walkF_of_stop hx hstop

/-- Witness for the amended C10: the single edge 0 → 5 stops at the
edge-less thread 5, so the walk terminates. -/
theorem c10_amended_walk_termination_witness :
    walkTerminates [(0, 5)] 9 0 :=
  (c10_amended_walk_termination [(0, 5)] 9 0).mpr
    ⟨1, 5, by decide, Or.inl (by decide)⟩

/-! ## Cross-thread interleaving model of one (query-type, key) pair

Arbitrarily many threads (ids = `Nat`) concurrently execute
`Context::fetch` for one fixed key.  Each transition is one atomic section
of the source: the `match map.entry(..)` arms of `try_fetch`
(lib.rs:130-163) run under the `DashMap` shard lock of the key, so claim,
observation and waiter registration are atomic sections; the publication
`map.insert` (lib.rs:166) takes the same shard lock, hence no registration
can interleave with it, and the waiter list drained right after it
(lib.rs:173-176) is fixed at that point — publication plus wakeups form
one step.  The owner's rule execution between claim and publication is not
atomic: all other threads interleave freely while the owner is `running`.
A rule that panics (e.g. with a nested cyclic-query error) never
publishes: `abortRun`.  The steal queue is never pushed (C9), so the
`Stole` branch is represented by its guard `stealable = []` on
registration.  `crossbeam` parkers can be unparked at any time and may
wake spuriously, so `wake` is always enabled for a waiting thread. -/

/-- Entry of the observed key, as stored in the shard. -/
inductive CEntry : Type where
  | inProgress (owner : Nat) (waiters : List Nat)
  | complete (value : Nat)
  deriving DecidableEq

/-- Per-thread control state within the fetch loop for the observed key. -/
inductive TSt : Type where
  | start
  | running
  | waiting
  | donev (r : Nat)
  | aborted
  | hung
  deriving DecidableEq

/-- Outcome of the deadlock-check walk, over all fuels. -/
inductive WalkOut : Type where
  | wok
  | wcyclic
  | wdiverge
  deriving DecidableEq

/-- Classification of the deadlock-check loop on a given graph. -/
def WalkClass (td : TDeps) (me st : Nat) : WalkOut → Prop
  | WalkOut.wok => ∃ fuel, walkF fuel td me st = some WRes.ok
  | WalkOut.wcyclic => ∃ fuel, walkF fuel td me st = some WRes.cyclic
  | WalkOut.wdiverge => ∀ fuel, walkF fuel td me st = none

/-- Thread state after the deadlock check: proceed to wait, abort with the
cyclic-query panic, or loop inside the check forever. -/
def tstOfOut : WalkOut → TSt
  | WalkOut.wok => TSt.waiting
  | WalkOut.wcyclic => TSt.aborted
  | WalkOut.wdiverge => TSt.hung

/-- Set the parker tokens of all listed threads (the unpark loop). -/
def setTrue (ws : List Nat) (f : Nat → Bool) : Nat → Bool :=
  fun x => if x ∈ ws then true else f x

theorem setTrue_mem {ws : List Nat} {w : Nat} (f : Nat → Bool) (h : w ∈ ws) :
    setTrue ws f w = true := by simp [setTrue, h]

/-- Global state: the entry of the observed key (`none` = absent), each
thread's control state, the parker tokens, the wait-for graph, and the
`thieves` / `stealable` queues.  `claims` is the history of successful
claims of the key — ghost state counting rule invocations for it. -/
structure Sys where
  entry : Option CEntry
  ts : Nat → TSt
  token : Nat → Bool
  tdeps : TDeps
  thieves : List Nat
  stealable : List Nat
  claims : List Nat

/-- A freshly constructed context: no entry, all threads about to fetch. -/
def CInit : Sys :=
  ⟨none, fun _ => TSt.start, fun _ => false, [], [], [], []⟩

/-- One interleaving step; `rv` is the value the key's (pure) rule
computes. -/
inductive CStep (rv : Nat) : Sys → Sys → Prop where
  /-- `try_fetch`, vacant arm (lib.rs:154-162): atomically insert
  `InProgress` and start running the rule. -/
  | claim (s : Sys) (t : Nat) (h : s.ts t = TSt.start) (he : s.entry = none) :
      CStep rv s { s with entry := some (CEntry.inProgress t []),
                          ts := Function.update s.ts t TSt.running,
                          claims := s.claims ++ [t] }
  /-- `try_fetch`, `Complete` arm (lib.rs:150-152): return the cloned
  result; the fetch loop ends. -/
  | hit (s : Sys) (t r : Nat) (h : s.ts t = TSt.start)
      (he : s.entry = some (CEntry.complete r)) :
      CStep rv s { s with ts := Function.update s.ts t (TSt.donev r) }
  /-- `try_fetch`, `InProgress` arm with empty steal queue
  (lib.rs:132-148): append to the waiter list and to `thieves`, create a
  fresh parker (token cleared), insert the wait-for edge, and run the
  deadlock check, whose outcome decides whether the thread waits, aborts
  with the cyclic-query panic, or loops forever inside the check. -/
  | register (s : Sys) (t o : Nat) (ws : List Nat) (out : WalkOut)
      (h : s.ts t = TSt.start) (he : s.entry = some (CEntry.inProgress o ws))
      (hst : s.stealable = [])
      (hout : WalkClass (ainsert t o s.tdeps) t o out) :
      CStep rv s { s with entry := some (CEntry.inProgress o (ws ++ [t])),
                          ts := Function.update s.ts t (tstOfOut out),
                          token := Function.update s.token t false,
                          tdeps := ainsert t o s.tdeps,
                          thieves := s.thieves ++ [t] }
  /-- Publication (lib.rs:165-177): overwrite with `Complete`, then wake
  every registered waiter and remove its wait-for edge; the owner's fetch
  returns the result. -/
  | publish (s : Sys) (t : Nat) (ws : List Nat) (h : s.ts t = TSt.running)
      (he : s.entry = some (CEntry.inProgress t ws)) :
      CStep rv s { s with entry := some (CEntry.complete rv),
                          ts := Function.update s.ts t (TSt.donev rv),
                          token := setTrue ws s.token,
                          tdeps := aremoveAll ws s.tdeps }
  /-- The rule panics (e.g. a nested cyclic-query error): the owner
  unwinds out of fetch and never publishes. -/
  | abortRun (s : Sys) (t : Nat) (h : s.ts t = TSt.running) :
      CStep rv s { s with ts := Function.update s.ts t TSt.aborted }
  /-- `Parker::park` returns — unparked or spuriously — and the fetch
  loop retries (lib.rs:181-184). -/
  | wake (s : Sys) (t : Nat) (h : s.ts t = TSt.waiting) :
      CStep rv s { s with ts := Function.update s.ts t TSt.start,
                          token := Function.update s.token t false }

/-- States reachable from the fresh system. -/
def CReach (rv : Nat) (s : Sys) : Prop :=
  Relation.ReflTransGen (CStep rv) CInit s

/-- Inductive invariant of the interleaving model. -/
def CInv (rv : Nat) (s : Sys) : Prop :=
  s.stealable = [] ∧
  (s.entry = none → s.claims = [] ∧ s.tdeps = [] ∧ ∀ u, s.ts u = TSt.start) ∧
  (∀ o ws, s.entry = some (CEntry.inProgress o ws) →
    s.claims = [o] ∧ (s.ts o = TSt.running ∨ s.ts o = TSt.aborted) ∧
    alookup o s.tdeps = none ∧ (∀ e ∈ s.tdeps, e.2 = o ∧ e.1 ∈ ws) ∧
    ∀ u r, s.ts u ≠ TSt.donev r) ∧
  (∀ r, s.entry = some (CEntry.complete r) →
    r = rv ∧ (∃ o, s.claims = [o]) ∧ s.tdeps = []) ∧
  (∀ u r, s.ts u = TSt.donev r → r = rv)

theorem cinv_init (rv : Nat) : CInv rv CInit := by
  refine ⟨rfl, fun _ => ⟨rfl, rfl, fun u => rfl⟩, ?_, ?_, ?_⟩
  · intro o ws he
    exact Option.noConfusion he
  · intro r he
    exact Option.noConfusion he
  · intro u r hu
    exact TSt.noConfusion hu

theorem cinv_step {rv : Nat} {s s' : Sys} (hs : CStep rv s s')
    (hinv : CInv rv s) : CInv rv s' := by
  obtain ⟨Hst, Hnone, Hinp, Hcomp, Hdone⟩ := hinv
  cases hs with
  | claim t h he =>
    obtain ⟨hc, htd, hall⟩ := Hnone he
    refine ⟨Hst, ?_, ?_, ?_, ?_⟩
    · intro hne
      exact Option.noConfusion hne
    · intro o ws he'
      have he2 : some (CEntry.inProgress t []) = some (CEntry.inProgress o ws) := he'
      injection he2 with he3
      injection he3 with hto hws
      subst hto
      subst hws
      refine ⟨?_, ?_, ?_, ?_, ?_⟩
      · show s.claims ++ [t] = [t]
        rw [hc]
        rfl
      · left
        show Function.update s.ts t TSt.running t = TSt.running
        rw [Function.update_same]
      · show alookup t s.tdeps = none
        rw [htd]
        rfl
      · intro e hee
        have hee2 : e ∈ s.tdeps := hee
        rw [htd] at hee2
        exact absurd hee2 (List.not_mem_nil e)
      · intro u r hu
        have hu2 : Function.update s.ts t TSt.running u = TSt.donev r := hu
        by_cases hut : u = t
        · subst hut
          rw [Function.update_same] at hu2
          exact TSt.noConfusion hu2
        · rw [Function.update_noteq hut] at hu2
          rw [hall u] at hu2
          exact TSt.noConfusion hu2
    · intro r he'
      have he2 : some (CEntry.inProgress t []) = some (CEntry.complete r) := he'
      injection he2 with he3
      exact CEntry.noConfusion he3
    · intro u r hu
      have hu2 : Function.update s.ts t TSt.running u = TSt.donev r := hu
      by_cases hut : u = t
      · subst hut
        rw [Function.update_same] at hu2
        exact TSt.noConfusion hu2
      · rw [Function.update_noteq hut] at hu2
        rw [hall u] at hu2
        exact TSt.noConfusion hu2
  | hit t r h he =>
    obtain ⟨hrv, hex, htd⟩ := Hcomp r he
    refine ⟨Hst, ?_, ?_, ?_, ?_⟩
    · intro hne
      have hne2 : s.entry = none := hne
      rw [he] at hne2
      exact Option.noConfusion hne2
    · intro o ws he'
      have he2 : s.entry = some (CEntry.inProgress o ws) := he'
      rw [he] at he2
      injection he2 with he3
      exact CEntry.noConfusion he3
    · intro r' he'
      have he2 : s.entry = some (CEntry.complete r') := he'
      rw [he] at he2
      injection he2 with he3
      injection he3 with hrr
      subst hrr
      exact ⟨hrv, hex, htd⟩
    · intro u r' hu
      have hu2 : Function.update s.ts t (TSt.donev r) u = TSt.donev r' := hu
      by_cases hut : u = t
      · subst hut
        rw [Function.update_same] at hu2
        injection hu2 with hrr
        rw [← hrr]
        exact hrv
      · rw [Function.update_noteq hut] at hu2
        exact Hdone u r' hu2
  | register t o ws out h he hst hout =>
    obtain ⟨hcl, hro, hlo, hedges, hnodone⟩ := Hinp o ws he
    have hto : t ≠ o := by
      intro hh
      subst hh
      cases hro with
      | inl hr => rw [h] at hr; exact TSt.noConfusion hr
      | inr hr => rw [h] at hr; exact TSt.noConfusion hr
    have hot : o ≠ t := fun hh => hto hh.symm
    refine ⟨Hst, ?_, ?_, ?_, ?_⟩
    · intro hne
      exact Option.noConfusion hne
    · intro o' ws' he'
      have he2 : some (CEntry.inProgress o (ws ++ [t])) =
          some (CEntry.inProgress o' ws') := he'
      injection he2 with he3
      injection he3 with hoo hww
      subst hoo
      subst hww
      refine ⟨hcl, ?_, ?_, ?_, ?_⟩
      · show Function.update s.ts t (tstOfOut out) o = TSt.running ∨
          Function.update s.ts t (tstOfOut out) o = TSt.aborted
        rw [Function.update_noteq hot]
        exact hro
      · show alookup o (ainsert t o s.tdeps) = none
        rw [alookup_ainsert_of_ne _ _ hot]
        exact hlo
      · intro e hee
        have hee2 : e ∈ (t, o) ::
            List.filter (fun x => decide (x.1 ≠ t)) s.tdeps := hee
        rcases List.mem_cons.mp hee2 with h1 | h2
        · subst h1
          exact ⟨rfl, by simp⟩
        · have hmem : e ∈ s.tdeps := List.mem_of_mem_filter h2
          obtain ⟨hb, ha⟩ := hedges e hmem
          exact ⟨hb, List.mem_append_left _ ha⟩
      · intro u r hu
        have hu2 : Function.update s.ts t (tstOfOut out) u = TSt.donev r := hu
        by_cases hut : u = t
        · subst hut
          rw [Function.update_same] at hu2
          cases out <;> exact TSt.noConfusion hu2
        · rw [Function.update_noteq hut] at hu2
          exact hnodone u r hu2
    · intro r he'
      have he2 : some (CEntry.inProgress o (ws ++ [t])) =
          some (CEntry.complete r) := he'
      injection he2 with he3
      exact CEntry.noConfusion he3
    · intro u r hu
      have hu2 : Function.update s.ts t (tstOfOut out) u = TSt.donev r := hu
      by_cases hut : u = t
      · subst hut
        rw [Function.update_same] at hu2
        cases out <;> exact TSt.noConfusion hu2
      · rw [Function.update_noteq hut] at hu2
        exact Hdone u r hu2
  | publish t ws h he =>
    obtain ⟨hcl, hro, hlo, hedges, hnodone⟩ := Hinp t ws he
    refine ⟨Hst, ?_, ?_, ?_, ?_⟩
    · intro hne
      exact Option.noConfusion hne
    · intro o' ws' he'
      have he2 : some (CEntry.complete rv) =
          some (CEntry.inProgress o' ws') := he'
      injection he2 with he3
      exact CEntry.noConfusion he3
    · intro r he'
      have he2 : some (CEntry.complete rv) = some (CEntry.complete r) := he'
      injection he2 with he3
      injection he3 with hrr
      refine ⟨hrr.symm, ⟨t, hcl⟩, ?_⟩
      show aremoveAll ws s.tdeps = []
      exact aremoveAll_eq_nil (fun e hee => (hedges e hee).2)
    · intro u r hu
      have hu2 : Function.update s.ts t (TSt.donev rv) u = TSt.donev r := hu
      by_cases hut : u = t
      · subst hut
        rw [Function.update_same] at hu2
        injection hu2 with hrr
        exact hrr.symm
      · rw [Function.update_noteq hut] at hu2
        exact Hdone u r hu2
  | abortRun t h =>
    refine ⟨Hst, ?_, ?_, ?_, ?_⟩
    · intro hne
      have hne2 : s.entry = none := hne
      obtain ⟨-, -, hall⟩ := Hnone hne2
      have := hall t
      rw [h] at this
      exact TSt.noConfusion this
    · intro o ws he'
      have he2 : s.entry = some (CEntry.inProgress o ws) := he'
      obtain ⟨hcl, hro, hlo, hedges, hnodone⟩ := Hinp o ws he2
      refine ⟨hcl, ?_, hlo, hedges, ?_⟩
      · by_cases hot : o = t
        · subst hot
          right
          show Function.update s.ts o TSt.aborted o = TSt.aborted
          rw [Function.update_same]
        · show Function.update s.ts t TSt.aborted o = TSt.running ∨
            Function.update s.ts t TSt.aborted o = TSt.aborted
          rw [Function.update_noteq hot]
          exact hro
      · intro u r hu
        have hu2 : Function.update s.ts t TSt.aborted u = TSt.donev r := hu
        by_cases hut : u = t
        · subst hut
          rw [Function.update_same] at hu2
          exact TSt.noConfusion hu2
        · rw [Function.update_noteq hut] at hu2
          exact hnodone u r hu2
    · intro r he'
      exact Hcomp r he'
    · intro u r hu
      have hu2 : Function.update s.ts t TSt.aborted u = TSt.donev r := hu
      by_cases hut : u = t
      · subst hut
        rw [Function.update_same] at hu2
        exact TSt.noConfusion hu2
      · rw [Function.update_noteq hut] at hu2
        exact Hdone u r hu2
  | wake t h =>
    refine ⟨Hst, ?_, ?_, ?_, ?_⟩
    · intro hne
      have hne2 : s.entry = none := hne
      obtain ⟨-, -, hall⟩ := Hnone hne2
      have := hall t
      rw [h] at this
      exact TSt.noConfusion this
    · intro o ws he'
      have he2 : s.entry = some (CEntry.inProgress o ws) := he'
      obtain ⟨hcl, hro, hlo, hedges, hnodone⟩ := Hinp o ws he2
      have hot : o ≠ t := by
        intro hh
        subst hh
        cases hro with
        | inl hr => rw [h] at hr; exact TSt.noConfusion hr
        | inr hr => rw [h] at hr; exact TSt.noConfusion hr
      refine ⟨hcl, ?_, hlo, hedges, ?_⟩
      · show Function.update s.ts t TSt.start o = TSt.running ∨
          Function.update s.ts t TSt.start o = TSt.aborted
        rw [Function.update_noteq hot]
        exact hro
      · intro u r hu
        have hu2 : Function.update s.ts t TSt.start u = TSt.donev r := hu
        by_cases hut : u = t
        · subst hut
          rw [Function.update_same] at hu2
          exact TSt.noConfusion hu2
        · rw [Function.update_noteq hut] at hu2
          exact hnodone u r hu2
    · intro r he'
      exact Hcomp r he'
    · intro u r hu
      have hu2 : Function.update s.ts t TSt.start u = TSt.donev r := hu
      by_cases hut : u = t
      · subst hut
        rw [Function.update_same] at hu2
        exact TSt.noConfusion hu2
      · rw [Function.update_noteq hut] at hu2
        exact Hdone u r hu2

theorem creach_inv {rv : Nat} {s : Sys} (h : CReach rv s) : CInv rv s := by
  induction h with
  | refl => exact cinv_init rv
  | tail hsteps hstep ih => exact cinv_step hstep ih

/-- C1: in every state reachable under any interleaving of any number of
threads fetching the same key, at most one claim of the entry has ever
succeeded (so the key's rule has been started at most once); the entry is
absent exactly as long as no caller has claimed it — once claimed it is
never missing again; and every caller whose fetch has returned received
the rule's value `rv`, with exactly one claim (one rule execution) having
happened. -/
theorem c1_exactly_once_same_value (rv : Nat) (s : Sys) (h : CReach rv s) :
    s.claims.length ≤ 1 ∧
    (s.claims = [] ↔ s.entry = none) ∧
    (∀ u r, s.ts u = TSt.donev r → r = rv ∧ s.claims.length = 1) := by
  obtain ⟨Hst, Hnone, Hinp, Hcomp, Hdone⟩ := creach_inv h
  refine ⟨?_, ⟨?_, ?_⟩, ?_⟩
  · cases he : s.entry with
    | none => rw [(Hnone he).1]; decide
    | some e =>
      cases e with
      | inProgress o ws =>
        rw [(Hinp o ws he).1]
        exact Nat.le_refl 1
      | complete r =>
        obtain ⟨-, ⟨o, hcl⟩, -⟩ := Hcomp r he
        rw [hcl]
        exact Nat.le_refl 1
  · intro hcl
    cases he : s.entry with
    | none => rfl
    | some e =>
      cases e with
      | inProgress o ws =>
        have := (Hinp o ws he).1
        rw [hcl] at this
        exact List.noConfusion this
      | complete r =>
        obtain ⟨-, ⟨o, ho⟩, -⟩ := Hcomp r he
        rw [hcl] at ho
        exact List.noConfusion ho
  · intro hne
    exact (Hnone hne).1
  · intro u r hu
    cases he : s.entry with
    | none =>
      have := (Hnone he).2.2 u
      rw [hu] at this
      exact TSt.noConfusion this
    | some e =>
      cases e with
      | inProgress o ws => exact absurd hu ((Hinp o ws he).2.2.2.2 u r)
      | complete r' =>
        obtain ⟨-, ⟨o, hcl⟩, -⟩ := Hcomp r' he
        refine ⟨Hdone u r hu, ?_⟩
        rw [hcl]
        rfl

/-- The state after thread 0 wins the claim from the fresh system. -/
def sysOne : Sys :=
  { CInit with entry := some (CEntry.inProgress 0 []),
               ts := Function.update CInit.ts 0 TSt.running,
               claims := CInit.claims ++ [0] }

/-- Witness for C1 at the state reached by thread 0 winning the claim. -/
theorem c1_exactly_once_same_value_witness :
    sysOne.claims.length ≤ 1 ∧
    (sysOne.claims = [] ↔ sysOne.entry = none) ∧
    (∀ u r, sysOne.ts u = TSt.donev r → r = 7 ∧ sysOne.claims.length = 1) :=
  c1_exactly_once_same_value 7 sysOne
    (Relation.ReflTransGen.single (CStep.claim CInit 0 rfl rfl))

/-- C6: any step that turns an in-progress entry into a `Complete` one
publishes the rule's value, wakes every waiter registered on the entry
(their parker tokens are set) while removing exactly the waiters' wait-for
edges — the edges of all other threads are untouched. -/
theorem c6_publish_wakes_all_waiters (rv : Nat) (s s' : Sys) (o : Nat)
    (ws : List Nat) (hs : CStep rv s s')
    (he : s.entry = some (CEntry.inProgress o ws))
    (hc : ∃ r, s'.entry = some (CEntry.complete r)) :
    s'.entry = some (CEntry.complete rv) ∧
    (∀ w, w ∈ ws → s'.token w = true ∧ alookup w s'.tdeps = none) ∧
    (∀ a, a ∉ ws → alookup a s'.tdeps = alookup a s.tdeps) := by
  obtain ⟨r0, hr0⟩ := hc
  cases hs with
  | claim t h he' =>
    rw [he'] at he
    exact Option.noConfusion he
  | hit t r h he' =>
    have h3 : s.entry = some (CEntry.complete r0) := hr0
    rw [he] at h3
    injection h3 with h4
    exact CEntry.noConfusion h4
  | register t o2 ws2 out h he2 hst hout =>
    have h3 : some (CEntry.inProgress o2 (ws2 ++ [t])) =
        some (CEntry.complete r0) := hr0
    injection h3 with h4
    exact CEntry.noConfusion h4
  | publish t ws2 h he2 =>
    rw [he2] at he
    injection he with h2
    injection h2 with hot hws
    subst hot
    subst hws
    refine ⟨rfl, ?_, ?_⟩
    · intro w hw
      exact ⟨setTrue_mem s.token hw, alookup_aremoveAll_mem s.tdeps hw⟩
    · intro a ha
      exact alookup_aremoveAll_not_mem s.tdeps ha
  | abortRun t h =>
    have h3 : s.entry = some (CEntry.complete r0) := hr0
    rw [he] at h3
    injection h3 with h4
    exact CEntry.noConfusion h4
  | wake t h =>
    have h3 : s.entry = some (CEntry.complete r0) := hr0
    rw [he] at h3
    injection h3 with h4
    exact CEntry.noConfusion h4

/-- Abstraction of an entry to the spec's three-state machine. -/
inductive EAbs : Type where
  | absent
  | inprog (owner : Nat)
  | comp (value : Nat)
  deriving DecidableEq

/-- Forget waiter lists and dependency payloads. -/
def eabs : Option CEntry → EAbs
  | none => EAbs.absent
  | some (CEntry.inProgress o _) => EAbs.inprog o
  | some (CEntry.complete v) => EAbs.comp v

/-- C8: along every step the entry's state machine either stays put,
claims an absent entry (`Absent → InProgress`), or completes the
claimant's in-progress entry (`InProgress → Complete` with the rule's
value) — no other transition exists — and a `Complete` entry never
changes again, keeping the same value forever. -/
theorem c8_entry_monotone (rv : Nat) (s s' : Sys) (hs : CStep rv s s') :
    (eabs s'.entry = eabs s.entry ∨
      (eabs s.entry = EAbs.absent ∧ ∃ o, eabs s'.entry = EAbs.inprog o) ∨
      (∃ o, eabs s.entry = EAbs.inprog o ∧ eabs s'.entry = EAbs.comp rv)) ∧
    (∀ v, eabs s.entry = EAbs.comp v → eabs s'.entry = EAbs.comp v) := by
  cases hs with
  | claim t h he =>
    constructor
    · right
      left
      exact ⟨by rw [he]; rfl, t, rfl⟩
    · intro v hv
      rw [he] at hv
      exact EAbs.noConfusion hv
  | hit t r h he =>
    exact ⟨Or.inl rfl, fun v hv => hv⟩
  | register t o ws out h he hst hout =>
    constructor
    · left
      show eabs (some (CEntry.inProgress o (ws ++ [t]))) = eabs s.entry
      rw [he]
      rfl
    · intro v hv
      rw [he] at hv
      exact EAbs.noConfusion hv
  | publish t ws h he =>
    constructor
    · right
      right
      exact ⟨t, by rw [he]; rfl, rfl⟩
    · intro v hv
      rw [he] at hv
      exact EAbs.noConfusion hv
  | abortRun t h =>
    exact ⟨Or.inl rfl, fun v hv => hv⟩
  | wake t h =>
    exact ⟨Or.inl rfl, fun v hv => hv⟩

/-- Publication scenario: thread 0 owns the entry with thread 1 registered
as waiter (and the corresponding wait-for edge 1 → 0). -/
def sysPub : Sys :=
  ⟨some (CEntry.inProgress 0 [1]),
   fun u => if u = 0 then TSt.running else TSt.waiting,
   fun _ => false, [(1, 0)], [1], [], [0]⟩

/-- The state right after thread 0 publishes value 9 in `sysPub`. -/
def sysPub' : Sys :=
  { sysPub with entry := some (CEntry.complete 9),
                ts := Function.update sysPub.ts 0 (TSt.donev 9),
                token := setTrue [1] sysPub.token,
                tdeps := aremoveAll [1] sysPub.tdeps }

/-- Witness for C6 at the publication step of `sysPub`. -/
theorem c6_publish_wakes_all_waiters_witness :
    sysPub'.entry = some (CEntry.complete 9) ∧
    (∀ w, w ∈ [1] → sysPub'.token w = true ∧ alookup w sysPub'.tdeps = none) ∧
    (∀ a, a ∉ [1] → alookup a sysPub'.tdeps = alookup a sysPub.tdeps) :=
  c6_publish_wakes_all_waiters 9 sysPub sysPub' 0 [1]
    (CStep.publish sysPub 0 [1] rfl rfl) rfl ⟨9, rfl⟩

/-- Witness for C8 at the claim step from the fresh system. -/
theorem c8_entry_monotone_witness :
    (eabs sysOne.entry = eabs CInit.entry ∨
      (eabs CInit.entry = EAbs.absent ∧ ∃ o, eabs sysOne.entry = EAbs.inprog o) ∨
      (∃ o, eabs CInit.entry = EAbs.inprog o ∧ eabs sysOne.entry = EAbs.comp 7)) ∧
    (∀ v, eabs CInit.entry = EAbs.comp v → eabs sysOne.entry = EAbs.comp v) :=
  c8_entry_monotone 7 CInit sysOne (CStep.claim CInit 0 rfl rfl)

end Rockrs
